import Mathlib

/-!
Verification of the `screp.py` reporting pipeline.

The script fetches two lists from a GraphQL endpoint, builds a rank index from
the stats list (identifier -> zero-based position, later occurrences
overwriting earlier ones), stably sorts the config list by the rank of its
`oappId` (identifiers absent from the index sort as `+infinity`, i.e. last),
deduplicates the sorted list keeping the first record per `oappId`, and prints
the first ten records.

The development embeds the data model and the pure transformations of the
script, plus an `Except`-based model of the fallible run (HTTP status check
and field accesses on raw JSON records).
-/

namespace Screp

/-- A stats record returned under `OAppStats`: `{ id, totalPacketsReceived }`. -/
structure StatRecord where
  id : String
  totalPacketsReceived : Int
deriving DecidableEq

/-- A config record returned under `OAppSecurityConfig`: `{ oappId, ... }`.
The additional opaque fields of the record are modelled by `payload`. -/
structure ConfigRecord where
  oappId : String
  payload : Nat
deriving DecidableEq

/-- Core of the rank-index builder, on the list of identifiers: the dict
comprehension `{row["id"]: rank for rank, row in enumerate(stats)}` of
`screp.py` line 38, modelled as the lookup function of the resulting dict.
Iterating assignments left to right makes a later write overwrite an earlier
one for the same key. -/
def order_index_ids (ids : List String) : String → Option Nat :=
  ids.enum.foldl (fun m p => fun y => if y = p.2 then some p.1 else m y)
    (fun _ => none)

/-- `order_index` of `screp.py` line 38: build the rank index from the stats
rows, keyed by `row["id"]`. -/
def order_index (stats : List StatRecord) : String → Option Nat :=
  order_index_ids (stats.map StatRecord.id)

/-- Recursive presentation of the rank index: ranks `k, k+1, ...` are assigned
along the list, the tail (written later) winning over the head. -/
def order_index_from : Nat → List String → String → Option Nat
  | _, [], _ => none
  | k, i :: ids, x =>
    match order_index_from (k + 1) ids x with
    | some v => some v
    | none => if x = i then some k else none

theorem order_index_ids_foldl (ids : List String) :
    ∀ (k : Nat) (init : String → Option Nat) (x : String),
      (List.foldl (fun m p => fun y => if y = p.2 then some p.1 else m y) init
          (List.enumFrom k ids)) x
        = match order_index_from k ids x with
          | some v => some v
          | none => init x := by
  induction ids with
  | nil => intro k init x; rfl
  | cons i ids ih =>
    intro k init x
    rw [List.enumFrom_cons, List.foldl_cons, ih]
    cases h : order_index_from (k + 1) ids x with
    | some v => simp [order_index_from, h]
    | none =>
      by_cases hx : x = i
      · subst hx
        simp [order_index_from, h]
      · simp [order_index_from, h, hx]

theorem order_index_ids_eq (ids : List String) (x : String) :
    order_index_ids ids x = order_index_from 0 ids x := by
  unfold order_index_ids
  rw [show ids.enum = List.enumFrom 0 ids from rfl, order_index_ids_foldl]
  cases h : order_index_from 0 ids x <;> simp

theorem order_index_from_eq_none (ids : List String) :
    ∀ (k : Nat) (x : String), order_index_from k ids x = none ↔ x ∉ ids := by
  induction ids with
  | nil => intro k x; simp [order_index_from]
  | cons i ids ih =>
    intro k x
    unfold order_index_from
    cases h : order_index_from (k + 1) ids x with
    | some v =>
      have hx : x ∈ ids := by
        by_contra hmem
        rw [← ih (k + 1) x] at hmem
        rw [h] at hmem
        exact Option.some_ne_none v hmem
      simp [hx]
    | none =>
      have hx : x ∉ ids := (ih (k + 1) x).mp h
      by_cases hxi : x = i
      · simp [hxi]
      · simp [hxi, hx]

theorem order_index_from_some (ids : List String) :
    ∀ (k v : Nat) (x : String), order_index_from k ids x = some v →
      ∃ i, ∃ hi : i < ids.length, v = k + i ∧ ids[i] = x := by
  induction ids with
  | nil => intro k v x h; simp [order_index_from] at h
  | cons a ids ih =>
    intro k v x h
    unfold order_index_from at h
    cases hrec : order_index_from (k + 1) ids x with
    | some w =>
      rw [hrec] at h
      obtain ⟨i, hi, hv, hget⟩ := ih (k + 1) w x hrec
      have hv' : v = w := by simpa using h.symm
      refine ⟨i + 1, by simpa using Nat.succ_lt_succ hi, ?_, by simpa using hget⟩
      omega
    | none =>
      rw [hrec] at h
      by_cases hx : x = a
      · refine ⟨0, by simp, ?_, by simpa using hx.symm⟩
        simp [hx] at h
        omega
      · simp [hx] at h

theorem order_index_from_last (ids : List String) :
    ∀ (k i : Nat) (hi : i < ids.length),
      (∀ (j : Nat) (hj : j < ids.length), i < j → ids[j] ≠ ids[i]) →
      order_index_from k ids (ids[i]) = some (k + i) := by
  induction ids with
  | nil => intro k i hi; simp at hi
  | cons a ids ih =>
    intro k i hi hlast
    cases i with
    | zero =>
      have hnone : order_index_from (k + 1) ids ((a :: ids)[0]) = none := by
        rw [order_index_from_eq_none]
        intro hmem
        simp at hmem
        obtain ⟨j, hj, hget⟩ := List.mem_iff_getElem.mp hmem
        exact hlast (j + 1) (by simpa using Nat.succ_lt_succ hj) (Nat.succ_pos j)
          (by simpa using hget)
      unfold order_index_from
      rw [hnone]
      simp
    | succ i' =>
      have hi' : i' < ids.length := by simpa using Nat.lt_of_succ_lt_succ hi
      have hlast' : ∀ (j : Nat) (hj : j < ids.length), i' < j → ids[j] ≠ ids[i'] := by
        intro j hj hij
        have := hlast (j + 1) (by simpa using Nat.succ_lt_succ hj)
          (Nat.succ_lt_succ hij)
        simpa using this
      have := ih (k + 1) i' hi' hlast'
      unfold order_index_from
      rw [show ((a :: ids)[i' + 1] : String) = ids[i'] from by simp, this]
      simp [Nat.add_assoc, Nat.add_comm 1 i']

theorem order_index_eq_none (S : List StatRecord) (x : String) :
    order_index S x = none ↔ x ∉ S.map StatRecord.id := by
  rw [order_index, order_index_ids_eq, order_index_from_eq_none]

/-- C1: the rank index built from a StatRecord sequence maps each identifier to
the zero-based position of its last occurrence in the sequence; when an
identifier appears more than once, the later occurrence overwrites the
earlier one. -/
theorem order_index_last_occurrence (S : List StatRecord) (i : Nat)
    (hi : i < S.length)
    (hlast : ∀ (j : Nat) (hj : j < S.length), i < j → S[j].id ≠ S[i].id) :
    order_index S (S[i].id) = some i := by
  unfold order_index
  rw [order_index_ids_eq]
  have hi' : i < (S.map StatRecord.id).length := by simpa using hi
  have hget : ((S.map StatRecord.id)[i] : String) = S[i].id := by simp
  have hlast' : ∀ (j : Nat) (hj : j < (S.map StatRecord.id).length), i < j →
      (S.map StatRecord.id)[j] ≠ (S.map StatRecord.id)[i] := by
    intro j hj hij
    have hj' : j < S.length := by simpa using hj
    simpa using hlast j hj' hij
  have := order_index_from_last (S.map StatRecord.id) 0 i hi' hlast'
  rw [hget] at this
  simpa using this

/-- Witness for C1 at a concrete input: in `["a", "b", "a"]` the last
occurrence of `"a"` is at position 2. -/
theorem order_index_last_occurrence_witness :
    order_index [⟨"a", 5⟩, ⟨"b", 3⟩, ⟨"a", 2⟩] "a" = some 2 := by
  have h := order_index_last_occurrence [⟨"a", 5⟩, ⟨"b", 3⟩, ⟨"a", 2⟩] 2
    (by decide)
    (by
      intro j hj hij
      have hj3 : j < 3 := by simpa using hj
      exact absurd hij (by omega))
  simpa using h

/-- The sort key of `screp.py` line 43 on an identifier:
`order_index.get(c["oappId"], float("inf"))` — the rank when the identifier is
in the index, `+infinity` (the top element of `WithTop Nat`) otherwise. -/
def idKey (R : String → Option Nat) (x : String) : WithTop Nat :=
  match R x with
  | some r => (r : WithTop Nat)
  | none => ⊤

/-- The sort key of a config record: the key of its `oappId`. -/
def sortKey (R : String → Option Nat) (c : ConfigRecord) : WithTop Nat :=
  idKey R c.oappId

/-- Key comparison used by the sort of lines 41-44. -/
def keyLE (R : String → Option Nat) (a b : ConfigRecord) : Prop :=
  sortKey R a ≤ sortKey R b

instance (R : String → Option Nat) : DecidableRel (keyLE R) :=
  fun a b => inferInstanceAs (Decidable (sortKey R a ≤ sortKey R b))

instance (R : String → Option Nat) : IsTotal ConfigRecord (keyLE R) :=
  ⟨fun a b => le_total (sortKey R a) (sortKey R b)⟩

instance (R : String → Option Nat) : IsTrans ConfigRecord (keyLE R) :=
  ⟨fun _ _ _ hab hbc => le_trans hab hbc⟩

/-- `configs_sorted` of `screp.py` lines 41-44: Python's `sorted` is a stable
ascending sort by the key. A stable sort by a key into a linear order is
extensionally unique, so it is modelled by insertion sort with the non-strict
key comparison, which is stable. -/
def configs_sorted (R : String → Option Nat) (configs : List ConfigRecord) :
    List ConfigRecord :=
  List.insertionSort (keyLE R) configs

theorem filter_key_orderedInsert (R : String → Option Nat) (v : WithTop Nat)
    (a : ConfigRecord) (l : List ConfigRecord) :
    (List.orderedInsert (keyLE R) a l).filter (fun c => sortKey R c = v)
      = if sortKey R a = v then a :: l.filter (fun c => sortKey R c = v)
        else l.filter (fun c => sortKey R c = v) := by
  rw [List.orderedInsert_eq_take_drop, List.filter_append]
  have htake : (l.takeWhile (fun b => decide ¬ keyLE R a b)).filter
      (fun c => sortKey R c = v) = []
      ∨ ¬ sortKey R a = v := by
    by_cases hv : sortKey R a = v
    · left
      rw [List.filter_eq_nil_iff]
      intro b hb
      have hdec := List.mem_takeWhile_imp hb
      have hlt : sortKey R b < sortKey R a := by
        have : ¬ keyLE R a b := by simpa using hdec
        exact lt_of_not_le this
      have hne : sortKey R b ≠ v := by
        rw [← hv]
        exact ne_of_lt hlt
      simp [hne]
    · right; exact hv
  by_cases hv : sortKey R a = v
  · rcases htake with htake | hc
    · rw [htake, List.nil_append, if_pos hv, List.filter_cons]
      conv_rhs =>
        rw [← List.takeWhile_append_dropWhile (fun b => decide ¬ keyLE R a b) l,
          List.filter_append, htake, List.nil_append]
      simp [hv]
    · exact absurd hv hc
  · rw [if_neg hv, List.filter_cons]
    conv_rhs =>
      rw [← List.takeWhile_append_dropWhile (fun b => decide ¬ keyLE R a b) l,
        List.filter_append]
    simp [hv]

theorem filter_key_insertionSort (R : String → Option Nat) (v : WithTop Nat)
    (l : List ConfigRecord) :
    (List.insertionSort (keyLE R) l).filter (fun c => sortKey R c = v)
      = l.filter (fun c => sortKey R c = v) := by
  induction l with
  | nil => rfl
  | cons a l ih =>
    show (List.orderedInsert (keyLE R) a
        (List.insertionSort (keyLE R) l)).filter (fun c => sortKey R c = v) = _
    rw [filter_key_orderedInsert, ih, List.filter_cons]
    by_cases hv : sortKey R a = v <;> simp [hv]

/-- C2: sorting by `R.get(oappId, +infinity)` ascending is stable — for every
key value, the sorted output restricted to the entries with that key equals
the input restricted to those entries, so any two equal-key entries (in
particular all entries whose identifier is absent from the index, which share
the key `+infinity`) appear in the same relative order as in the input. -/
theorem configs_sorted_stable (R : String → Option Nat) (C : List ConfigRecord)
    (v : WithTop Nat) :
    (configs_sorted R C).filter (fun c => sortKey R c = v)
      = C.filter (fun c => sortKey R c = v) :=
  filter_key_insertionSort R v C

theorem idKey_eq_top (R : String → Option Nat) (x : String) :
    idKey R x = ⊤ ↔ R x = none := by
  unfold idKey
  cases h : R x with
  | none => simp
  | some r => simp

theorem filter_unknown_eq_filter_top (S : List StatRecord)
    (l : List ConfigRecord) :
    l.filter (fun c => c.oappId ∉ S.map StatRecord.id)
      = l.filter (fun c => sortKey (order_index S) c = ⊤) := by
  apply List.filter_congr
  intro c _
  exact decide_eq_decide.mpr
    ((idKey_eq_top (order_index S) c.oappId).trans
      (order_index_eq_none S c.oappId)).symm

/-- C4: in the sorted output, every record whose `oappId` does not occur in the
stats list comes after all records whose `oappId` does occur (no unknown
record ever precedes a known one), and the unknown records keep their relative
input order. -/
theorem unknown_ids_sort_last (S : List StatRecord) (C : List ConfigRecord) :
    (configs_sorted (order_index S) C).Pairwise
        (fun a b => a.oappId ∉ S.map StatRecord.id →
          b.oappId ∉ S.map StatRecord.id)
      ∧ (configs_sorted (order_index S) C).filter
            (fun c => c.oappId ∉ S.map StatRecord.id)
          = C.filter (fun c => c.oappId ∉ S.map StatRecord.id) := by
  constructor
  · have hs : (configs_sorted (order_index S) C).Pairwise
        (keyLE (order_index S)) :=
      List.sorted_insertionSort (keyLE (order_index S)) C
    refine hs.imp ?_
    intro a b hab hna
    have ha : sortKey (order_index S) a = ⊤ := by
      rw [sortKey, idKey_eq_top, order_index_eq_none]
      exact hna
    have hb : sortKey (order_index S) b = ⊤ := by
      have : (⊤ : WithTop Nat) ≤ sortKey (order_index S) b := ha ▸ hab
      exact top_le_iff.mp this
    rw [← order_index_eq_none S b.oappId, ← idKey_eq_top]
    exact hb
  · rw [filter_unknown_eq_filter_top, filter_unknown_eq_filter_top]
    exact filter_key_insertionSort (order_index S) ⊤ C

/-- One step of the dedupe loop of `screp.py` lines 48-49:
`deduped.setdefault(c["oappId"], c)` inserts `c` only when no entry with its
key is present. The insertion-ordered dict is modelled by the list of its
values in insertion order, whose keys are the values' `oappId` fields. -/
def dedupeStep (acc : List ConfigRecord) (c : ConfigRecord) :
    List ConfigRecord :=
  if acc.any (fun d => d.oappId == c.oappId) then acc else acc ++ [c]

/-- `configs_unique_in_stats_order` of lines 47-50: run the dedupe loop over
the sorted list starting from the empty dict and take the dict's values. -/
def configs_unique_in_stats_order (l : List ConfigRecord) :
    List ConfigRecord :=
  l.foldl dedupeStep []

/-- Recursive presentation of the dedupe loop: keep a record exactly when its
`oappId` has not been seen before, accumulating the seen identifiers. -/
def dedupeFrom : List String → List ConfigRecord → List ConfigRecord
  | _, [] => []
  | seen, c :: cs =>
    if c.oappId ∈ seen then dedupeFrom seen cs
    else c :: dedupeFrom (c.oappId :: seen) cs

theorem dedupeFrom_congr : ∀ (l : List ConfigRecord) (s₁ s₂ : List String),
    (∀ x, x ∈ s₁ ↔ x ∈ s₂) → dedupeFrom s₁ l = dedupeFrom s₂ l := by
  intro l
  induction l with
  | nil => intros; rfl
  | cons c cs ih =>
    intro s₁ s₂ hs
    unfold dedupeFrom
    by_cases hc : c.oappId ∈ s₁
    · rw [if_pos hc, if_pos ((hs _).mp hc)]
      exact ih _ _ hs
    · rw [if_neg hc, if_neg (fun h => hc ((hs _).mpr h))]
      refine congrArg _ (ih _ _ ?_)
      intro x
      simp only [List.mem_cons]
      rw [hs x]

theorem foldl_dedupeStep (l : List ConfigRecord) :
    ∀ acc : List ConfigRecord,
      l.foldl dedupeStep acc
        = acc ++ dedupeFrom (acc.map ConfigRecord.oappId) l := by
  induction l with
  | nil => intro acc; simp [dedupeFrom]
  | cons c cs ih =>
    intro acc
    rw [List.foldl_cons, ih]
    by_cases hc : c.oappId ∈ acc.map ConfigRecord.oappId
    · have hany : acc.any (fun d => d.oappId == c.oappId) = true := by
        rw [List.any_eq_true]
        obtain ⟨d, hd, he⟩ := List.mem_map.mp hc
        exact ⟨d, hd, by simp [he]⟩
      rw [show dedupeStep acc c = acc from by rw [dedupeStep, if_pos hany]]
      rw [show dedupeFrom (acc.map ConfigRecord.oappId) (c :: cs)
          = dedupeFrom (acc.map ConfigRecord.oappId) cs from by
        rw [dedupeFrom, if_pos hc]]
    · have hany : acc.any (fun d => d.oappId == c.oappId) = false := by
        rw [List.any_eq_false]
        intro d hd
        simp only [beq_iff_eq]
        exact fun he => hc (List.mem_map.mpr ⟨d, hd, he⟩)
      rw [show dedupeStep acc c = acc ++ [c] from by rw [dedupeStep, hany]; rfl]
      rw [show dedupeFrom (acc.map ConfigRecord.oappId) (c :: cs)
          = c :: dedupeFrom (c.oappId :: acc.map ConfigRecord.oappId) cs from by
        rw [dedupeFrom, if_neg hc]]
      rw [dedupeFrom_congr cs ((acc ++ [c]).map ConfigRecord.oappId)
        (c.oappId :: acc.map ConfigRecord.oappId)
        (by
          intro x
          rw [List.map_append, List.mem_append, List.mem_cons]
          simp only [List.map_cons, List.map_nil, List.mem_singleton]
          exact or_comm)]
      simp

theorem configs_unique_eq (l : List ConfigRecord) :
    configs_unique_in_stats_order l = dedupeFrom [] l := by
  have h := foldl_dedupeStep l []
  simpa [configs_unique_in_stats_order] using h

theorem dedupeFrom_sublist : ∀ (l : List ConfigRecord) (seen : List String),
    (dedupeFrom seen l).Sublist l := by
  intro l
  induction l with
  | nil => intro seen; simp [dedupeFrom]
  | cons c cs ih =>
    intro seen
    unfold dedupeFrom
    by_cases hc : c.oappId ∈ seen
    · rw [if_pos hc]; exact (ih seen).cons c
    · rw [if_neg hc]; exact (ih _).cons₂ c

theorem dedupeFrom_countP_zero : ∀ (l : List ConfigRecord)
    (seen : List String) (x : String), x ∈ seen →
    (dedupeFrom seen l).countP (fun c => c.oappId == x) = 0 := by
  intro l
  induction l with
  | nil => intros; rfl
  | cons c cs ih =>
    intro seen x hx
    unfold dedupeFrom
    by_cases hc : c.oappId ∈ seen
    · rw [if_pos hc]; exact ih seen x hx
    · rw [if_neg hc, List.countP_cons]
      have hne : (c.oappId == x) = false := by
        have hcx : c.oappId ≠ x := fun he => hc (he ▸ hx)
        simp [hcx]
      rw [hne, ih _ x (List.mem_cons_of_mem _ hx)]
      simp

theorem dedupeFrom_countP_one : ∀ (l : List ConfigRecord)
    (seen : List String) (x : String), x ∉ seen → (∃ c ∈ l, c.oappId = x) →
    (dedupeFrom seen l).countP (fun c => c.oappId == x) = 1 := by
  intro l
  induction l with
  | nil => intro seen x _ hex; simp at hex
  | cons c cs ih =>
    intro seen x hx hex
    unfold dedupeFrom
    by_cases hc : c.oappId ∈ seen
    · rw [if_pos hc]
      refine ih seen x hx ?_
      obtain ⟨d, hd, he⟩ := hex
      rcases List.mem_cons.mp hd with rfl | hd'
      · exact absurd (he ▸ hc) hx
      · exact ⟨d, hd', he⟩
    · rw [if_neg hc, List.countP_cons]
      by_cases hcx : c.oappId = x
      · rw [hcx]
        have h0 : (dedupeFrom (x :: seen) cs).countP
            (fun c => c.oappId == x) = 0 :=
          dedupeFrom_countP_zero cs (x :: seen) x (List.mem_cons_self _ _)
        rw [h0]
        simp
      · have hex' : ∃ d ∈ cs, d.oappId = x := by
          obtain ⟨d, hd, he⟩ := hex
          rcases List.mem_cons.mp hd with rfl | hd'
          · exact absurd he hcx
          · exact ⟨d, hd', he⟩
        have hx' : x ∉ c.oappId :: seen := by
          intro h
          rcases List.mem_cons.mp h with h | h
          · exact hcx h.symm
          · exact hx h
        rw [ih _ x hx' hex']
        simp [hcx]

theorem dedupeFrom_find_first : ∀ (l : List ConfigRecord)
    (seen : List String) (x : String), x ∉ seen →
    (dedupeFrom seen l).find? (fun c => c.oappId == x)
      = l.find? (fun c => c.oappId == x) := by
  intro l
  induction l with
  | nil => intros; rfl
  | cons c cs ih =>
    intro seen x hx
    unfold dedupeFrom
    by_cases hc : c.oappId ∈ seen
    · have hcx : (c.oappId == x) = false := by
        have : c.oappId ≠ x := fun he => hx (he ▸ hc)
        simp [this]
      rw [if_pos hc, List.find?_cons, hcx]
      exact ih seen x hx
    · rw [if_neg hc]
      by_cases hcx : c.oappId = x
      · rw [List.find?_cons, List.find?_cons]
        simp [hcx]
      · have hbx : (c.oappId == x) = false := by simp [hcx]
        rw [List.find?_cons, List.find?_cons, hbx]
        refine ih _ x ?_
        intro h
        rcases List.mem_cons.mp h with h | h
        · exact hcx h.symm
        · exact hx h

/-- C3: deduplication of a sorted sequence keeps exactly one record per
distinct `oappId` — namely the first record with that identifier encountered
in the sequence — discards all later duplicates, and the kept records stay in
their original (sorted) order. -/
theorem dedupe_keeps_first (l : List ConfigRecord) (x : String) :
    (configs_unique_in_stats_order l).Sublist l
      ∧ ((∃ c ∈ l, c.oappId = x) →
          (configs_unique_in_stats_order l).countP
            (fun c => c.oappId == x) = 1)
      ∧ (configs_unique_in_stats_order l).find? (fun c => c.oappId == x)
          = l.find? (fun c => c.oappId == x) := by
  rw [configs_unique_eq]
  exact ⟨dedupeFrom_sublist l [],
    fun hex => dedupeFrom_countP_one l [] x (by simp) hex,
    dedupeFrom_find_first l [] x (by simp)⟩

/-- Witness for C3 at a concrete input: in `[a, b, a]` exactly the first
`a`-record survives, in place. -/
theorem dedupe_keeps_first_witness :
    (configs_unique_in_stats_order
        [⟨"a", 0⟩, ⟨"b", 1⟩, ⟨"a", 2⟩]).Sublist
        [⟨"a", 0⟩, ⟨"b", 1⟩, ⟨"a", 2⟩]
      ∧ (configs_unique_in_stats_order
            [⟨"a", 0⟩, ⟨"b", 1⟩, ⟨"a", 2⟩]).countP
          (fun c => c.oappId == "a") = 1
      ∧ (configs_unique_in_stats_order
            [⟨"a", 0⟩, ⟨"b", 1⟩, ⟨"a", 2⟩]).find? (fun c => c.oappId == "a")
          = [⟨"a", 0⟩, ⟨"b", 1⟩, ⟨"a", 2⟩].find? (fun c => c.oappId == "a") :=
  ⟨(dedupe_keeps_first [⟨"a", 0⟩, ⟨"b", 1⟩, ⟨"a", 2⟩] "a").1,
    (dedupe_keeps_first [⟨"a", 0⟩, ⟨"b", 1⟩, ⟨"a", 2⟩] "a").2.1
      ⟨⟨"a", 0⟩, List.mem_cons_self _ _, rfl⟩,
    (dedupe_keeps_first [⟨"a", 0⟩, ⟨"b", 1⟩, ⟨"a", 2⟩] "a").2.2⟩

/-- C6: on the concrete input with stats identifiers `[a, b, c]` (ranks
`a = 0`, `b = 1`, `c = 2`) and configs `[c, a, x, a]`, the deduplicated
sorted output is `[a, c, x]`: the kept `a`-record is the first `a`-record of
the input and the unknown `x` goes last. -/
theorem example_deduped_sorted_output :
    configs_unique_in_stats_order
        (configs_sorted
          (order_index [⟨"a", 30⟩, ⟨"b", 20⟩, ⟨"c", 10⟩])
          [⟨"c", 0⟩, ⟨"a", 1⟩, ⟨"x", 2⟩, ⟨"a", 3⟩])
      = [⟨"a", 1⟩, ⟨"c", 0⟩, ⟨"x", 2⟩] := by
  decide

theorem idKey_eq_coe (R : String → Option Nat) (x : String) (v : Nat)
    (h : R x = some v) : idKey R x = (v : WithTop Nat) := by
  simp [idKey, h]

theorem order_index_inj (S : List StatRecord) (x y : String) (v : Nat)
    (hx : order_index S x = some v) (hy : order_index S y = some v) :
    x = y := by
  rw [order_index, order_index_ids_eq] at hx hy
  obtain ⟨i, hi, hvi, hgi⟩ := order_index_from_some _ 0 v x hx
  obtain ⟨j, hj, hvj, hgj⟩ := order_index_from_some _ 0 v y hy
  have hij : i = j := by omega
  subst hij
  rw [← hgi, ← hgj]

theorem order_index_ids_nodup_get (ids : List String) (hnd : ids.Nodup)
    (i : Nat) (hi : i < ids.length) :
    order_index_ids ids (ids[i]) = some i := by
  rw [order_index_ids_eq]
  have h := order_index_from_last ids 0 i hi
    (by
      intro j hj hij hget
      have := (List.Nodup.getElem_inj_iff hnd).mp hget
      omega)
  simpa using h

/-- Strict rank comparison on identifiers. -/
def rankLT (S : List StatRecord) (x y : String) : Prop :=
  idKey (order_index S) x < idKey (order_index S) y

theorem stats_ids_pairwise_rankLT (S : List StatRecord)
    (hnd : (S.map StatRecord.id).Nodup) :
    (S.map StatRecord.id).Pairwise (rankLT S) := by
  rw [List.pairwise_iff_getElem]
  intro i j hi hj hij
  have hki : idKey (order_index S) ((S.map StatRecord.id)[i])
      = (i : WithTop Nat) :=
    idKey_eq_coe _ _ i (order_index_ids_nodup_get (S.map StatRecord.id) hnd i hi)
  have hkj : idKey (order_index S) ((S.map StatRecord.id)[j])
      = (j : WithTop Nat) :=
    idKey_eq_coe _ _ j (order_index_ids_nodup_get (S.map StatRecord.id) hnd j hj)
  rw [rankLT, hki, hkj]
  exact WithTop.coe_lt_coe.mpr hij

theorem dedupeFrom_ids_nodup : ∀ (l : List ConfigRecord) (seen : List String),
    ((dedupeFrom seen l).map ConfigRecord.oappId).Nodup
      ∧ ∀ x ∈ (dedupeFrom seen l).map ConfigRecord.oappId, x ∉ seen := by
  intro l
  induction l with
  | nil =>
    intro seen
    exact ⟨by simp [dedupeFrom], by simp [dedupeFrom]⟩
  | cons c cs ih =>
    intro seen
    unfold dedupeFrom
    by_cases hc : c.oappId ∈ seen
    · rw [if_pos hc]; exact ih seen
    · rw [if_neg hc]
      obtain ⟨hnd, hmem⟩ := ih (c.oappId :: seen)
      constructor
      · rw [List.map_cons, List.nodup_cons]
        exact ⟨fun h => (hmem _ h) (List.mem_cons_self _ _), hnd⟩
      · intro x hx
        rw [List.map_cons, List.mem_cons] at hx
        rcases hx with rfl | hx
        · exact hc
        · exact fun h => (hmem x hx) (List.mem_cons_of_mem _ h)

theorem mem_dedupe_ids (l : List ConfigRecord) (x : String) :
    x ∈ (configs_unique_in_stats_order l).map ConfigRecord.oappId
      ↔ x ∈ l.map ConfigRecord.oappId := by
  constructor
  · intro hx
    obtain ⟨c, hc, he⟩ := List.mem_map.mp hx
    have hsub : (configs_unique_in_stats_order l).Sublist l := by
      rw [configs_unique_eq]; exact dedupeFrom_sublist l []
    exact List.mem_map.mpr ⟨c, hsub.subset hc, he⟩
  · intro hx
    obtain ⟨c, hc, he⟩ := List.mem_map.mp hx
    have h1 : (configs_unique_in_stats_order l).countP
        (fun c => c.oappId == x) = 1 := by
      rw [configs_unique_eq]
      exact dedupeFrom_countP_one l [] x (by simp) ⟨c, hc, he⟩
    have hpos : 0 < (configs_unique_in_stats_order l).countP
        (fun c => c.oappId == x) := by omega
    obtain ⟨d, hd, hdx⟩ := List.countP_pos_iff.mp hpos
    exact List.mem_map.mpr ⟨d, hd, by simpa using hdx⟩

/-- C5: when every `oappId` of the config list occurs among the stats
identifiers (which are pairwise distinct, one stats record per application),
the identifiers of the deduplicated sorted output are exactly the stats
identifiers restricted to those occurring in the config list, in stats
(descending packet count) order. -/
theorem deduped_order_matches_stats (S : List StatRecord)
    (C : List ConfigRecord)
    (hnd : (S.map StatRecord.id).Nodup)
    (hall : ∀ c ∈ C, c.oappId ∈ S.map StatRecord.id) :
    (configs_unique_in_stats_order
        (configs_sorted (order_index S) C)).map ConfigRecord.oappId
      = (S.map StatRecord.id).filter
          (fun x => x ∈ C.map ConfigRecord.oappId) := by
  set R := order_index S with hR
  set srt := configs_sorted R C with hsrt
  set out := configs_unique_in_stats_order srt with hout
  have hperm : srt.Perm C := List.perm_insertionSort (keyLE R) C
  have hsub : out.Sublist srt := by
    rw [hout, configs_unique_eq]; exact dedupeFrom_sublist srt []
  -- the identifiers of the output are pairwise distinct
  have houtnd : (out.map ConfigRecord.oappId).Nodup := by
    rw [hout, configs_unique_eq]
    exact (dedupeFrom_ids_nodup srt []).1
  -- membership in the output identifiers is membership in the config identifiers
  have hmem_out : ∀ x, x ∈ out.map ConfigRecord.oappId
      ↔ x ∈ C.map ConfigRecord.oappId := by
    intro x
    rw [hout, mem_dedupe_ids]
    constructor
    · intro hx
      obtain ⟨c, hc, he⟩ := List.mem_map.mp hx
      exact List.mem_map.mpr ⟨c, hperm.mem_iff.mp hc, he⟩
    · intro hx
      obtain ⟨c, hc, he⟩ := List.mem_map.mp hx
      exact List.mem_map.mpr ⟨c, hperm.mem_iff.mpr hc, he⟩
  -- every record of the sorted list has a known identifier
  have hknown : ∀ c ∈ srt, c.oappId ∈ S.map StatRecord.id := fun c hc =>
    hall c (hperm.mem_iff.mp hc)
  -- the output identifiers are strictly increasing in rank
  have houtpw : (out.map ConfigRecord.oappId).Pairwise (rankLT S) := by
    have hsorted : srt.Pairwise (keyLE R) :=
      List.sorted_insertionSort (keyLE R) C
    have houtle : out.Pairwise (keyLE R) := hsorted.sublist hsub
    have houtne : out.Pairwise
        (fun a b => a.oappId ≠ b.oappId) :=
      List.pairwise_map.mp houtnd
    have hand := houtle.and houtne
    rw [List.pairwise_map]
    refine hand.imp_of_mem ?_
    intro a b ha hb hab
    obtain ⟨hle, hne⟩ := hab
    have hax : a.oappId ∈ S.map StatRecord.id := hknown a (hsub.subset ha)
    have hbx : b.oappId ∈ S.map StatRecord.id := hknown b (hsub.subset hb)
    have hasome : R a.oappId ≠ none := fun h =>
      (order_index_eq_none S a.oappId).mp h hax
    have hbsome : R b.oappId ≠ none := fun h =>
      (order_index_eq_none S b.oappId).mp h hbx
    obtain ⟨va, hva⟩ := Option.ne_none_iff_exists'.mp hasome
    obtain ⟨vb, hvb⟩ := Option.ne_none_iff_exists'.mp hbsome
    show idKey (order_index S) a.oappId < idKey (order_index S) b.oappId
    have hka : idKey (order_index S) a.oappId = (va : WithTop Nat) :=
      idKey_eq_coe _ _ va hva
    have hkb : idKey (order_index S) b.oappId = (vb : WithTop Nat) :=
      idKey_eq_coe _ _ vb hvb
    have hle' : idKey (order_index S) a.oappId
        ≤ idKey (order_index S) b.oappId := hle
    rw [hka, hkb] at hle' ⊢
    rcases lt_or_eq_of_le hle' with hlt | heq
    · exact hlt
    · exfalso
      have hvab : va = vb := by exact_mod_cast heq
      refine hne (order_index_inj S a.oappId b.oappId va hva ?_)
      rw [hvab]
      exact hvb
  -- the filtered stats identifiers are strictly increasing in rank and nodup
  have hfiltpw : ((S.map StatRecord.id).filter
      (fun x => x ∈ C.map ConfigRecord.oappId)).Pairwise (rankLT S) :=
    (stats_ids_pairwise_rankLT S hnd).filter _
  have hfiltnd : ((S.map StatRecord.id).filter
      (fun x => x ∈ C.map ConfigRecord.oappId)).Nodup :=
    hnd.filter _
  -- the two lists are permutations of each other
  have hpermids : (out.map ConfigRecord.oappId).Perm
      ((S.map StatRecord.id).filter (fun x => x ∈ C.map ConfigRecord.oappId)) := by
    rw [List.perm_ext_iff_of_nodup houtnd hfiltnd]
    intro x
    rw [hmem_out x, List.mem_filter]
    constructor
    · intro hx
      refine ⟨?_, by simpa using hx⟩
      obtain ⟨c, hc, he⟩ := List.mem_map.mp hx
      exact he ▸ hall c hc
    · intro ⟨_, hx⟩
      simpa using hx
  -- two strictly rank-sorted lists that are permutations are equal
  haveI : IsAntisymm String (rankLT S) :=
    ⟨fun a b h1 h2 => absurd h2 (lt_asymm h1)⟩
  exact List.eq_of_perm_of_sorted hpermids houtpw hfiltpw

/-- Witness for C5 at a concrete input: stats ids `[a, b, c]`, config ids
`[c, a, a]`; the deduped output ids are `[a, c]`, the stats-order restriction
of the stats ids to those occurring among the configs. -/
theorem deduped_order_matches_stats_witness :
    (configs_unique_in_stats_order
        (configs_sorted (order_index [⟨"a", 30⟩, ⟨"b", 20⟩, ⟨"c", 10⟩])
          [⟨"c", 0⟩, ⟨"a", 1⟩, ⟨"a", 2⟩])).map ConfigRecord.oappId
      = (([⟨"a", 30⟩, ⟨"b", 20⟩, ⟨"c", 10⟩] : List StatRecord).map
          StatRecord.id).filter
          (fun x => x ∈ ([⟨"c", 0⟩, ⟨"a", 1⟩, ⟨"a", 2⟩] :
            List ConfigRecord).map ConfigRecord.oappId) :=
  deduped_order_matches_stats _ _ (by decide) (by decide)

/-- A raw `OAppStats` JSON record: either expected field may be absent. -/
structure RawStatRecord where
  id : Option String
  totalPacketsReceived : Option Int
deriving DecidableEq

/-- A raw `OAppSecurityConfig` JSON record: the `oappId` field may be absent;
the additional opaque fields are modelled by `payload`. -/
structure RawConfigRecord where
  oappId : Option String
  payload : Nat
deriving DecidableEq

/-- The `data` field of the parsed JSON response body. -/
structure QueryData where
  OAppStats : List RawStatRecord
  OAppSecurityConfig : List RawConfigRecord
deriving DecidableEq

/-- The HTTP response: a status code, and the parsed `data` field of the
body when the body is well-formed JSON carrying a `data` key. -/
structure HttpResponse where
  status : Nat
  body : Option QueryData
deriving DecidableEq

/-- `resp.raise_for_status()` of line 31: the `requests` library raises
`HTTPError` exactly for 4xx (client error) and 5xx (server error) status
codes; informational, success and redirect statuses do not raise. -/
def raise_for_status (status : Nat) : Except String Unit :=
  if 400 ≤ status ∧ status < 600 then Except.error "HTTPError"
  else Except.ok ()

/-- A dict field access `row[name]`: `KeyError` when the field is absent. -/
def getField {α : Type} (name : String) : Option α → Except String α
  | some v => Except.ok v
  | none => Except.error ("KeyError: " ++ name)

/-- Evaluate a fallible field extraction on every element of a list in order,
stopping at the first failure. -/
def extractAll {α β : Type} (f : α → Except String β) :
    List α → Except String (List β)
  | [] => Except.ok []
  | a :: l =>
    match f a with
    | Except.error e => Except.error e
    | Except.ok b =>
      match extractAll f l with
      | Except.error e => Except.error e
      | Except.ok bs => Except.ok (b :: bs)

/-- Key comparison for sorting the keyed raw config records: the rank of the
extracted `oappId`, missing identifiers counting as `+infinity`. -/
def pairLE (R : String → Option Nat) (a b : String × RawConfigRecord) :
    Prop :=
  idKey R a.1 ≤ idKey R b.1

instance (R : String → Option Nat) : DecidableRel (pairLE R) :=
  fun a b => inferInstanceAs (Decidable (idKey R a.1 ≤ idKey R b.1))

/-- Dedupe step on keyed raw records: as `dedupeStep`, keyed by the record's
extracted `oappId`. -/
def dedupeKeyedStep (acc : List (String × RawConfigRecord))
    (c : String × RawConfigRecord) : List (String × RawConfigRecord) :=
  if acc.any (fun d => d.1 == c.1) then acc else acc ++ [c]

/-- The run of `screp.py` after the POST, as a function of the HTTP response:
check the status (line 31), read `data` (line 32), build the rank index
accessing `row["id"]` on every stats row (line 38), compute the sort key
accessing `c["oappId"]` on every config (line 43, as the `sorted` key
function does), stably sort, dedupe keeping the first record per `oappId`
(lines 47-50), and return the first ten records of the result — the records
the script prints (lines 53-55). -/
def runScript (resp : HttpResponse) : Except String (List RawConfigRecord) :=
  match raise_for_status resp.status with
  | Except.error e => Except.error e
  | Except.ok _ =>
    match resp.body with
    | none => Except.error "KeyError: data"
    | some d =>
      match extractAll (fun r => getField "id" r.id) d.OAppStats with
      | Except.error e => Except.error e
      | Except.ok statIds =>
        match extractAll
            (fun c => (getField "oappId" c.oappId).map (fun x => (x, c)))
            d.OAppSecurityConfig with
        | Except.error e => Except.error e
        | Except.ok keyed =>
          Except.ok
            ((((List.insertionSort (pairLE (order_index_ids statIds))
                    keyed).foldl dedupeKeyedStep []).map Prod.snd).take 10)

/-- Counterexample to C7 as stated: status 304 is not 2xx, yet
`raise_for_status` (which raises only on 4xx/5xx) lets the run proceed and
produce output. -/
theorem non_2xx_may_proceed :
    ¬ (200 ≤ 304 ∧ 304 < 300)
      ∧ runScript ⟨304, some ⟨[], []⟩⟩ = Except.ok [] := by
  constructor
  · decide
  · rfl

/-- C7 (amended): a 4xx or 5xx response makes `raise_for_status` raise, so
the run aborts before any of the rank-index building, sorting, deduplication
or printing logic executes and produces no output. -/
theorem http_error_aborts (resp : HttpResponse)
    (h : 400 ≤ resp.status ∧ resp.status < 600) :
    runScript resp = Except.error "HTTPError" := by
  unfold runScript raise_for_status
  rw [if_pos h]

/-- Witness for the amended C7 at a concrete input: a 500 response aborts. -/
theorem http_error_aborts_witness :
    runScript ⟨500, some ⟨[], []⟩⟩ = Except.error "HTTPError" :=
  http_error_aborts ⟨500, some ⟨[], []⟩⟩ (by decide)

/-- Counterexample to C8 as stated: a stats record missing
`totalPacketsReceived` causes no error — the script never accesses that
field — and the run completes normally. -/
theorem missing_tpr_never_accessed :
    runScript ⟨200, some ⟨[⟨some "a", none⟩], []⟩⟩ = Except.ok [] := by
  rfl

theorem extractAll_ok {α β : Type} (f : α → Except String β) :
    ∀ (l : List α) (bs : List β), extractAll f l = Except.ok bs →
      ∀ a ∈ l, ∃ b, f a = Except.ok b := by
  intro l
  induction l with
  | nil => intro bs _ a ha; simp at ha
  | cons x l ih =>
    intro bs h a ha
    unfold extractAll at h
    cases hf : f x with
    | error e => rw [hf] at h; exact Except.noConfusion h
    | ok b =>
      rw [hf] at h
      cases hrec : extractAll f l with
      | error e => rw [hrec] at h; exact Except.noConfusion h
      | ok bs' =>
        rcases List.mem_cons.mp ha with rfl | ha'
        · exact ⟨b, hf⟩
        · exact ih bs' hrec a ha'

/-- C8 (amended): a record missing a field the script accesses — `id` in a
stats record or `oappId` in a config record — makes the run fail with an
unhandled error at the extraction of that field; `totalPacketsReceived` is
never accessed. -/
theorem missing_accessed_field_fails (resp : HttpResponse) (d : QueryData)
    (hbody : resp.body = some d)
    (hmiss : (∃ r ∈ d.OAppStats, r.id = none)
      ∨ (∃ c ∈ d.OAppSecurityConfig, c.oappId = none)) :
    ∃ e, runScript resp = Except.error e := by
  unfold runScript
  rw [hbody]
  split
  · exact ⟨_, rfl⟩
  · split
    · exact ⟨_, rfl⟩
    · next d' heq =>
      injection heq with heq2
      subst heq2
      split
      · exact ⟨_, rfl⟩
      · next statIds hids =>
        split
        · exact ⟨_, rfl⟩
        · next keyed hcfg =>
          exfalso
          rcases hmiss with ⟨r, hr, hrid⟩ | ⟨c, hc, hcid⟩
          · obtain ⟨b, hb⟩ := extractAll_ok _ d.OAppStats statIds hids r hr
            rw [hrid] at hb
            exact Except.noConfusion hb
          · obtain ⟨b, hb⟩ :=
              extractAll_ok _ d.OAppSecurityConfig keyed hcfg c hc
            rw [hcid] at hb
            exact Except.noConfusion hb

/-- Witness for the amended C8 at a concrete input: a stats record with no
`id` field makes the run fail. -/
theorem missing_accessed_field_fails_witness :
    ∃ e, runScript ⟨200, some ⟨[⟨none, some 5⟩], []⟩⟩
      = Except.error e :=
  missing_accessed_field_fails ⟨200, some ⟨[⟨none, some 5⟩], []⟩⟩
    ⟨[⟨none, some 5⟩], []⟩ rfl
    (Or.inl ⟨⟨none, some 5⟩, List.mem_cons_self _ _, rfl⟩)

/-- The deduplicated, sorted value the script derives from the two lists. -/
def scriptOutput (S : List StatRecord) (C : List ConfigRecord) :
    List ConfigRecord :=
  configs_unique_in_stats_order (configs_sorted (order_index S) C)

/-- The records printed by lines 53-55: the slice
`configs_unique_in_stats_order[:10]`, one record per line. -/
def printedRecords (S : List StatRecord) (C : List ConfigRecord) :
    List ConfigRecord :=
  (scriptOutput S C).take 10

/-- C9: the reporter prints exactly the first 10 records of the deduplicated
sequence — all of them when the sequence has fewer than 10 — in order, and
the printed prefix followed by the unprinted rest recovers the whole
sequence; printing feeds no later computation (the run ends with it). -/
theorem reporter_prints_first_ten (S : List StatRecord)
    (C : List ConfigRecord) :
    printedRecords S C ++ (scriptOutput S C).drop 10 = scriptOutput S C
      ∧ (printedRecords S C).length = min 10 (scriptOutput S C).length
      ∧ ((scriptOutput S C).length ≤ 10 →
          printedRecords S C = scriptOutput S C) := by
  refine ⟨List.take_append_drop 10 (scriptOutput S C), ?_, ?_⟩
  · rw [printedRecords, List.length_take]
  · intro h
    rw [printedRecords, List.take_of_length_le h]

/-- Witness for C9 at a concrete input: with fewer than 10 records, the
whole deduplicated sequence is printed. -/
theorem reporter_prints_first_ten_witness :
    printedRecords [⟨"a", 30⟩] [⟨"a", 0⟩, ⟨"b", 1⟩]
      = scriptOutput [⟨"a", 30⟩] [⟨"a", 0⟩, ⟨"b", 1⟩] :=
  (reporter_prints_first_ten [⟨"a", 30⟩] [⟨"a", 0⟩, ⟨"b", 1⟩]).2.2
    (by decide)

end Screp
